import Mathlib

set_option maxRecDepth 100000

/-!
Verification of the Tweet-body composition algorithm of
`mandarin_twitter_bot` (`src/main.py`, function `generate_tweet_body`),
against its natural-language specification.

Shallow embedding conventions:
* Python strings are modelled as lists of Unicode code points
  (`List Char`); Python `len` is `List.length`.
* Python integers are modelled as `Int` (Python subtraction can go
  negative, and the algorithm compares differences against `0`).
* The three optional previous-tweet dictionaries are modelled as
  `Option PrevTweetDict`: `none` models a falsy value (`None` or `{}`),
  and a present dictionary records which of the keys `"word"` and
  `"url"` it carries.
* `raise ValueError` is modelled with `Except`: the function returns
  `.error msg` instead of raising.

The embedded function `generateTweetBodyFull` additionally returns the
accounted character count that the Python code tracks in its
`char_count` / `remaining_chars` bookkeeping variables (word characters
counted twice, URLs counted as `TWEET_URL_LENGTH`); the string actually
returned by the Python function is its first component, projected out
as `generate_tweet_body`.
-/

namespace TwitterBot

/-- Python strings, as sequences of Unicode code points. -/
abbrev PyStr := List Char

/-- Python `len(s)` for a string, as an integer. -/
def pyLen (s : PyStr) : Int := (s.length : Int)

/-- Python slicing `s[:-n]` (for `n ≥ 1`): everything but the last `n`
code points; the empty string when `n ≥ len(s)`. -/
def pyDropLast (s : PyStr) (n : Nat) : PyStr := s.take (s.length - n)

/-- Python `str.isspace` / whitespace class used by `str.strip()`:
ASCII whitespace, the C1 control whitespace, and the Unicode space
separators. -/
def isPySpace (c : Char) : Bool :=
  c.toNat ∈ [0x09, 0x0a, 0x0b, 0x0c, 0x0d, 0x1c, 0x1d, 0x1e, 0x1f, 0x20,
              0x85, 0xa0, 0x1680, 0x2000, 0x2001, 0x2002, 0x2003, 0x2004,
              0x2005, 0x2006, 0x2007, 0x2008, 0x2009, 0x200a, 0x2028,
              0x2029, 0x202f, 0x205f, 0x3000]

/-- Python `s.strip()`: remove leading and trailing whitespace. -/
def pyStrip (s : PyStr) : PyStr :=
  ((s.dropWhile isPySpace).reverse.dropWhile isPySpace).reverse

/-- Python `"".join(l)`: concatenation of a list of strings. -/
def pyJoin : List PyStr → PyStr
  | [] => []
  | s :: ss => s ++ pyJoin ss

/-- `constants.TWEET_MAX_CHARS = 280` (src/constants.py, line 71). -/
def TWEET_MAX_CHARS : Int := 280

/-- `constants.TWEET_URL_LENGTH = 23` (src/constants.py, line 73). -/
def TWEET_URL_LENGTH : Int := 23

/-- The fields of an `MDBGParser` instance that `generate_tweet_body`
reads: the current word (`simplified`), its `pinyin`, and the ordered
list of `definitions`. -/
structure MDBGParser where
  simplified : PyStr
  pinyin : PyStr
  definitions : List PyStr

/-- A truthy previous-tweet dictionary: which of the keys `"word"` and
`"url"` are present, and their values.  (The dictionary built by
`get_previous_tweets` also carries `"tweet_id"`, which
`generate_tweet_body` never reads.) -/
structure PrevTweetDict where
  word : Option PyStr
  url : Option PyStr

/-- The `PreviousTweets` namedtuple with fields `last_week`,
`last_month` and `random`; `none` models a falsy field (`None` or an
empty dictionary). -/
structure PreviousTweets where
  last_week : Option PrevTweetDict
  last_month : Option PrevTweetDict
  random : Option PrevTweetDict

/-- The `TweetEntry` namedtuple of `generate_tweet_body`: a rendered
text fragment together with its accounted character count. -/
structure TweetEntry where
  entry : PyStr
  char_count : Int

/-- The label string `"Last Week"`. -/
def sLastWeek : PyStr := "Last Week".data

/-- The label string `"Last Month"`. -/
def sLastMonth : PyStr := "Last Month".data

/-- The label string `"Random"`. -/
def sRandom : PyStr := "Random".data

/-- The literal `"\n"`. -/
def sNewline : PyStr := "\n".data

/-- The literal `": "`. -/
def sColonSpace : PyStr := ": ".data

/-- The literal `" ("`. -/
def sSpaceParen : PyStr := " (".data

/-- The literal `")"`. -/
def sCloseParen : PyStr := ")".data

/-- The literal `"; "`. -/
def sSemiSpace : PyStr := "; ".data

/-- The absent previous-tweets record (all three fields falsy). -/
def noPrev : PreviousTweets := { last_week := none, last_month := none, random := none }

/-- Body of the loops at src/main.py lines 153-163 and 208-218: for one
label, render the previous-tweet fragment `"\n{label}: {word} ({url})"`
and its accounted count
`len(entry) + len(word) - len(url) + TWEET_URL_LENGTH`, or skip the
tweet (`none`) when it is falsy or lacks the `"word"` or `"url"` key. -/
def prevTweetEntry (label : PyStr) (tweet : Option PrevTweetDict) : Option TweetEntry :=
  match tweet with
  | none => none
  | some t =>
    match t.word, t.url with
    | some w, some u =>
      let e : PyStr := sNewline ++ label ++ sColonSpace ++ w ++ sSpaceParen ++ u ++ sCloseParen
      some { entry := e, char_count := pyLen e + pyLen w - pyLen u + TWEET_URL_LENGTH }
    | _, _ => none

/-- The minimal current entry `f"{simplified} ({pinyin})"`
(src/main.py line 166). -/
def nowEntry0 (p : MDBGParser) : PyStr :=
  p.simplified ++ sSpaceParen ++ p.pinyin ++ sCloseParen

/-- Its accounted count `len(entry) + len(simplified)` (src/main.py
line 167): every character of the word is counted twice. -/
def nowCount0 (p : MDBGParser) : Int :=
  pyLen (nowEntry0 p) + pyLen p.simplified

/-- The `while` loop at src/main.py lines 177-182: the first index whose
definition satisfies `char_count + len(definition) <= TWEET_MAX_CHARS`,
or the length of the list when none does. -/
def firstFitIndex (cc : Int) : List PyStr → Nat
  | [] => 0
  | d :: ds =>
    if cc + pyLen d ≤ TWEET_MAX_CHARS then 0 else firstFitIndex cc ds + 1

/-- The final value of `definition_index` (src/main.py lines 177-182),
where the running count is `nowCount0 p + 2` (for the `": "`). -/
def defIndex (p : MDBGParser) : Nat :=
  firstFitIndex (nowCount0 p + 2) p.definitions

/-- The current entry after the first definition pass (src/main.py
lines 173-190): `f"{entry}: "` plus the chosen definition, or — when no
definition fits — `entry[:-2]`, dropping the `": "` again. -/
def nowEntry1 (p : MDBGParser) : PyStr :=
  if h : defIndex p < p.definitions.length then
    (nowEntry0 p ++ sColonSpace) ++ p.definitions.get ⟨defIndex p, h⟩
  else
    pyDropLast (nowEntry0 p ++ sColonSpace) 2

/-- Its accounted count after the first definition pass. -/
def nowCount1 (p : MDBGParser) : Int :=
  if h : defIndex p < p.definitions.length then
    (nowCount0 p + 2) + pyLen (p.definitions.get ⟨defIndex p, h⟩)
  else
    (nowCount0 p + 2) - 2

/-- The current entry with the trailing newline (src/main.py line 198). -/
def nowEntry2 (p : MDBGParser) : PyStr := nowEntry1 p ++ sNewline

/-- Its accounted count (src/main.py line 199). -/
def nowCount2 (p : MDBGParser) : Int := nowCount1 p + 1

/-- The candidate previous-tweet blocks in the fixed priority order
`["Last Week", "Last Month", "Random"]` (src/main.py lines 203-218 and
226). -/
def prevBlocks (prev : PreviousTweets) : List (Option TweetEntry) :=
  [prevTweetEntry sLastWeek prev.last_week,
   prevTweetEntry sLastMonth prev.last_month,
   prevTweetEntry sRandom prev.random]

/-- The `while` loop at src/main.py lines 226-235: walk the candidate
blocks in priority order while `remaining_chars >= 0`; a present block
is accepted exactly when `remaining_chars - previous.char_count >= 0`,
which appends its text and decrements the budget; otherwise it is
skipped and the budget is unchanged.  Returns the list of accepted
fragments and the final budget. -/
def includePrevious : Int → List (Option TweetEntry) → List PyStr × Int
  | remaining, [] => ([], remaining)
  | remaining, b :: bs =>
    if 0 ≤ remaining then
      match b with
      | some previous =>
        if 0 ≤ remaining - previous.char_count then
          let r := includePrevious (remaining - previous.char_count) bs
          (previous.entry :: r.1, r.2)
        else
          includePrevious remaining bs
      | none => includePrevious remaining bs
    else
      ([], remaining)

/-- The `while` loop at src/main.py lines 239-247 (top-up pass): walk
all definitions by index `i`, skipping the index chosen in the first
pass; a definition is appended (as `entry[:-1] + "; " + definition +
"\n"`) exactly when `remaining_chars - (len(definition) + 2) >= 0`,
which also decrements the budget. -/
def topUpGo (di : Nat) : Nat → PyStr → Int → List PyStr → PyStr × Int
  | _, entry, remaining, [] => (entry, remaining)
  | i, entry, remaining, d :: ds =>
    if i ≠ di then
      if 0 ≤ remaining - (pyLen d + 2) then
        topUpGo di (i + 1) (pyDropLast entry 1 ++ sSemiSpace ++ d ++ sNewline)
          (remaining - (pyLen d + 2)) ds
      else
        topUpGo di (i + 1) entry remaining ds
    else
      topUpGo di (i + 1) entry remaining ds

/-- The budget at the start of the previous-entry pass
(src/main.py line 223): `TWEET_MAX_CHARS - now.char_count`. -/
def remaining0 (p : MDBGParser) : Int := TWEET_MAX_CHARS - nowCount2 p

/-- The previous-entry pass of the run. -/
def includeResult (p : MDBGParser) (prev : PreviousTweets) : List PyStr × Int :=
  includePrevious (remaining0 p) (prevBlocks prev)

/-- The previous-tweet fragments accepted during the run. -/
def includedEntries (p : MDBGParser) (prev : PreviousTweets) : List PyStr :=
  (includeResult p prev).1

/-- The budget left after the previous-entry pass. -/
def remaining1 (p : MDBGParser) (prev : PreviousTweets) : Int :=
  (includeResult p prev).2

/-- The top-up pass of the run, starting from the newline-terminated
current entry. -/
def topUpResult (p : MDBGParser) (prev : PreviousTweets) : PyStr × Int :=
  topUpGo (defIndex p) 0 (nowEntry2 p) (remaining1 p prev) p.definitions

/-- The final current-entry fragment (`included_entries[0]`,
src/main.py line 248). -/
def finalEntry (p : MDBGParser) (prev : PreviousTweets) : PyStr :=
  (topUpResult p prev).1

/-- The budget left after the top-up pass. -/
def remaining2 (p : MDBGParser) (prev : PreviousTweets) : Int :=
  (topUpResult p prev).2

/-- `generate_tweet_body` (src/main.py lines 123-250), instrumented
with the accounted character count of the returned body:

* if `len(entry) + len(simplified) > TWEET_MAX_CHARS` for the minimal
  entry, raise `ValueError` (modelled as `.error`) — lines 165-170;
* otherwise choose the first fitting definition (lines 173-190); if the
  count with the trailing newline would reach `TWEET_MAX_CHARS`, return
  the current entry alone (lines 192-196);
* otherwise accept previous-tweet blocks in priority order within the
  budget (lines 220-235), top up with further definitions (lines
  237-248), and return `"".join(included_entries).strip()` (line 250).

The second component of the result is the accounted count the code
tracks: the final `char_count` for the early return, and
`TWEET_MAX_CHARS - remaining_chars` after the two budget passes. -/
def generateTweetBodyFull (p : MDBGParser) (prev : PreviousTweets) :
    Except PyStr (PyStr × Int) :=
  if nowCount0 p > TWEET_MAX_CHARS then
    .error ("Entry ".data ++ nowEntry0 p ++ " exceeds 280 characters.".data)
  else if nowCount1 p + 1 ≥ TWEET_MAX_CHARS then
    .ok (nowEntry1 p, nowCount1 p)
  else
    .ok (pyStrip (pyJoin (finalEntry p prev :: includedEntries p prev)),
         TWEET_MAX_CHARS - remaining2 p prev)

/-- The string returned by `generate_tweet_body` (src/main.py line 250
or line 196), or the raised error. -/
def generate_tweet_body (p : MDBGParser) (prev : PreviousTweets) :
    Except PyStr PyStr :=
  (generateTweetBodyFull p prev).map Prod.fst

/-! Basic facts about the string model. -/

theorem pyLen_append (a b : PyStr) : pyLen (a ++ b) = pyLen a + pyLen b := by
  simp [pyLen, List.length_append]

theorem pyLen_nonneg (a : PyStr) : 0 ≤ pyLen a := by
  simp [pyLen]

theorem pyDropLast_append (s t : PyStr) : pyDropLast (s ++ t) t.length = s := by
  unfold pyDropLast
  have h : (s ++ t).length - t.length = s.length := by
    simp [List.length_append]
  rw [h, List.take_left]

/-! Facts about the first-fitting-definition scan. -/

theorem firstFitIndex_le (cc : Int) (ds : List PyStr) :
    firstFitIndex cc ds ≤ ds.length := by
  induction ds with
  | nil => simp [firstFitIndex]
  | cons d ds ih =>
    simp only [firstFitIndex, List.length_cons]
    split
    · omega
    · omega

theorem firstFitIndex_fit (cc : Int) (ds : List PyStr)
    (h : firstFitIndex cc ds < ds.length) :
    cc + pyLen (ds.get ⟨firstFitIndex cc ds, h⟩) ≤ TWEET_MAX_CHARS := by
  induction ds with
  | nil => simp at h
  | cons d ds ih =>
    by_cases hfit : cc + pyLen d ≤ TWEET_MAX_CHARS
    · simp [firstFitIndex, hfit]
    · have heq : firstFitIndex cc (d :: ds) = firstFitIndex cc ds + 1 := by
        simp [firstFitIndex, hfit]
      have h' : firstFitIndex cc ds < ds.length := by
        have := h; rw [heq] at this; simpa using this
      have := ih h'
      simpa [heq] using this

theorem firstFitIndex_before (cc : Int) (ds : List PyStr) (j : Nat)
    (hj : j < firstFitIndex cc ds) (hl : j < ds.length) :
    TWEET_MAX_CHARS < cc + pyLen (ds.get ⟨j, hl⟩) := by
  induction ds generalizing j with
  | nil => simp at hl
  | cons d ds ih =>
    by_cases hfit : cc + pyLen d ≤ TWEET_MAX_CHARS
    · simp [firstFitIndex, hfit] at hj
    · have heq : firstFitIndex cc (d :: ds) = firstFitIndex cc ds + 1 := by
        simp [firstFitIndex, hfit]
      rw [heq] at hj
      cases j with
      | zero => simpa using hfit
      | succ j =>
        have hl' : j < ds.length := by simpa using hl
        have := ih j (by omega) hl'
        simpa using this

/-! Facts about the current-entry block. -/

theorem nowEntry1_of_no_fit (p : MDBGParser)
    (h : ¬ defIndex p < p.definitions.length) : nowEntry1 p = nowEntry0 p := by
  unfold nowEntry1
  rw [dif_neg h]
  have h2 : sColonSpace.length = 2 := by decide
  rw [← h2, pyDropLast_append]

theorem nowCount1_of_no_fit (p : MDBGParser)
    (h : ¬ defIndex p < p.definitions.length) : nowCount1 p = nowCount0 p := by
  unfold nowCount1
  rw [dif_neg h]
  omega

theorem nowCount0_le_nowCount1 (p : MDBGParser) : nowCount0 p ≤ nowCount1 p := by
  unfold nowCount1
  split
  · have := pyLen_nonneg (p.definitions.get ⟨defIndex p, by assumption⟩)
    omega
  · omega

theorem nowCount1_le_max (p : MDBGParser) (h : nowCount0 p ≤ TWEET_MAX_CHARS) :
    nowCount1 p ≤ TWEET_MAX_CHARS := by
  unfold nowCount1
  split
  · have hfit := firstFitIndex_fit (nowCount0 p + 2) p.definitions (by assumption)
    simpa [defIndex] using hfit
  · omega

/-! Facts about the previous-tweet blocks. -/

theorem prevTweetEntry_inv {label : PyStr} {t : Option PrevTweetDict}
    {te : TweetEntry} (h : prevTweetEntry label t = some te) :
    ∃ w u, t = some { word := some w, url := some u } ∧
      te.entry = sNewline ++ label ++ sColonSpace ++ w ++ sSpaceParen ++ u ++ sCloseParen ∧
      te.char_count = pyLen te.entry + pyLen w - pyLen u + TWEET_URL_LENGTH := by
  match t with
  | none => simp [prevTweetEntry] at h
  | some d =>
    match hw : d.word, hu : d.url with
    | none, _ => simp [prevTweetEntry, hw] at h
    | some w, none => simp [prevTweetEntry, hw, hu] at h
    | some w, some u =>
      refine ⟨w, u, ?_, ?_, ?_⟩
      · cases d; simp_all
      · simp [prevTweetEntry, hw, hu] at h
        rw [← h]
        simp [List.append_assoc]
      · simp [prevTweetEntry, hw, hu] at h
        rw [← h]

theorem prevTweetEntry_char_count {label : PyStr} {t : Option PrevTweetDict}
    {te : TweetEntry} (h : prevTweetEntry label t = some te) :
    ∃ w, te.char_count = pyLen label + 2 * pyLen w + 29 := by
  obtain ⟨w, u, _, hent, hcc⟩ := prevTweetEntry_inv h
  refine ⟨w, ?_⟩
  have hlen : pyLen te.entry = 1 + pyLen label + 2 + pyLen w + 2 + pyLen u + 1 := by
    rw [hent]
    simp only [pyLen_append]
    have h1 : pyLen sNewline = 1 := by decide
    have h2 : pyLen sColonSpace = 2 := by decide
    have h3 : pyLen sSpaceParen = 2 := by decide
    have h4 : pyLen sCloseParen = 1 := by decide
    omega
  rw [hcc, hlen]
  unfold TWEET_URL_LENGTH
  omega

theorem prevTweetEntry_cost_nonneg {label : PyStr} {t : Option PrevTweetDict}
    {te : TweetEntry} (h : prevTweetEntry label t = some te) :
    0 ≤ te.char_count := by
  obtain ⟨w, hw⟩ := prevTweetEntry_char_count h
  have h1 := pyLen_nonneg label
  have h2 := pyLen_nonneg w
  omega

theorem prevTweetEntry_ends_paren {label : PyStr} {t : Option PrevTweetDict}
    {te : TweetEntry} (h : prevTweetEntry label t = some te) :
    ∃ z, te.entry = z ++ [')'] := by
  obtain ⟨w, u, _, hent, _⟩ := prevTweetEntry_inv h
  refine ⟨sNewline ++ label ++ sColonSpace ++ w ++ sSpaceParen ++ u, ?_⟩
  rw [hent]
  simp [sCloseParen]

theorem prevBlocks_mem_inv {prev : PreviousTweets} {b : Option TweetEntry}
    (h : b ∈ prevBlocks prev) :
    b = prevTweetEntry sLastWeek prev.last_week ∨
    b = prevTweetEntry sLastMonth prev.last_month ∨
    b = prevTweetEntry sRandom prev.random := by
  simpa [prevBlocks] using h

/-! Invariants of the previous-entry inclusion pass. -/

theorem includePrevious_nil (r : Int) : includePrevious r [] = ([], r) := rfl

theorem includePrevious_cons_none (r : Int) (bs : List (Option TweetEntry))
    (hr : 0 ≤ r) : includePrevious r (none :: bs) = includePrevious r bs := by
  simp [includePrevious, hr]

theorem includePrevious_cons_skip (r : Int) (te : TweetEntry)
    (bs : List (Option TweetEntry)) (hr : 0 ≤ r)
    (hs : r - te.char_count < 0) :
    includePrevious r (some te :: bs) = includePrevious r bs := by
  simp only [includePrevious, if_pos hr]
  rw [if_neg (by omega)]

theorem includePrevious_cons_accept (r : Int) (te : TweetEntry)
    (bs : List (Option TweetEntry)) (hr : 0 ≤ r)
    (ha : 0 ≤ r - te.char_count) :
    includePrevious r (some te :: bs) =
      (te.entry :: (includePrevious (r - te.char_count) bs).1,
       (includePrevious (r - te.char_count) bs).2) := by
  simp only [includePrevious, if_pos hr]
  rw [if_pos ha]

theorem includePrevious_snd_nonneg (bs : List (Option TweetEntry)) :
    ∀ r : Int, 0 ≤ r → 0 ≤ (includePrevious r bs).2 := by
  induction bs with
  | nil => intro r hr; simpa [includePrevious] using hr
  | cons b bs ih =>
    intro r hr
    match b with
    | none => rw [includePrevious_cons_none r bs hr]; exact ih r hr
    | some te =>
      by_cases ha : 0 ≤ r - te.char_count
      · rw [includePrevious_cons_accept r te bs hr ha]
        exact ih (r - te.char_count) ha
      · rw [includePrevious_cons_skip r te bs hr (by omega)]
        exact ih r hr

theorem includePrevious_snd_le (bs : List (Option TweetEntry)) :
    ∀ r : Int, (∀ te, some te ∈ bs → 0 ≤ te.char_count) →
      (includePrevious r bs).2 ≤ r := by
  induction bs with
  | nil => intro r _; simp [includePrevious]
  | cons b bs ih =>
    intro r hb
    by_cases hr : 0 ≤ r
    · match b with
      | none =>
        rw [includePrevious_cons_none r bs hr]
        exact ih r (fun te hte => hb te (by simp [hte]))
      | some te =>
        have hcost : 0 ≤ te.char_count := hb te (by simp)
        by_cases ha : 0 ≤ r - te.char_count
        · rw [includePrevious_cons_accept r te bs hr ha]
          have := ih (r - te.char_count) (fun te' hte' => hb te' (by simp [hte']))
          simp only []
          omega
        · rw [includePrevious_cons_skip r te bs hr (by omega)]
          exact ih r (fun te' hte' => hb te' (by simp [hte']))
    · simp only [includePrevious, if_neg hr]
      cases b <;> omega

theorem includePrevious_mem (bs : List (Option TweetEntry)) :
    ∀ (r : Int) (e : PyStr), e ∈ (includePrevious r bs).1 →
      ∃ te, some te ∈ bs ∧ e = te.entry := by
  induction bs with
  | nil => intro r e he; simp [includePrevious] at he
  | cons b bs ih =>
    intro r e he
    by_cases hr : 0 ≤ r
    · match b with
      | none =>
        rw [includePrevious_cons_none r bs hr] at he
        obtain ⟨te, hte, hee⟩ := ih r e he
        exact ⟨te, by simp [hte], hee⟩
      | some te =>
        by_cases ha : 0 ≤ r - te.char_count
        · rw [includePrevious_cons_accept r te bs hr ha] at he
          simp only [List.mem_cons] at he
          rcases he with he | he
          · exact ⟨te, by simp, he⟩
          · obtain ⟨te', hte', hee⟩ := ih (r - te.char_count) e he
            exact ⟨te', by simp [hte'], hee⟩
        · rw [includePrevious_cons_skip r te bs hr (by omega)] at he
          obtain ⟨te', hte', hee⟩ := ih r e he
          exact ⟨te', by simp [hte'], hee⟩
    · simp only [includePrevious, if_neg hr] at he
      cases b <;> simp at he

/-! Invariants of the definition top-up pass. -/

theorem topUpGo_nil (di i : Nat) (e : PyStr) (r : Int) :
    topUpGo di i e r [] = (e, r) := rfl

theorem topUpGo_cons_chosen (di : Nat) (e : PyStr) (r : Int) (d : PyStr)
    (ds : List PyStr) :
    topUpGo di di e r (d :: ds) = topUpGo di (di + 1) e r ds := by
  simp [topUpGo]

theorem topUpGo_cons_accept (di i : Nat) (e : PyStr) (r : Int) (d : PyStr)
    (ds : List PyStr) (hi : i ≠ di) (ha : 0 ≤ r - (pyLen d + 2)) :
    topUpGo di i e r (d :: ds) =
      topUpGo di (i + 1) (pyDropLast e 1 ++ sSemiSpace ++ d ++ sNewline)
        (r - (pyLen d + 2)) ds := by
  simp [topUpGo, hi, ha]

theorem topUpGo_cons_reject (di i : Nat) (e : PyStr) (r : Int) (d : PyStr)
    (ds : List PyStr) (hi : i ≠ di) (ha : r - (pyLen d + 2) < 0) :
    topUpGo di i e r (d :: ds) = topUpGo di (i + 1) e r ds := by
  simp only [topUpGo, if_pos hi]
  rw [if_neg (by omega)]

theorem topUpGo_snd_nonneg (di : Nat) (ds : List PyStr) :
    ∀ (i : Nat) (e : PyStr) (r : Int), 0 ≤ r → 0 ≤ (topUpGo di i e r ds).2 := by
  induction ds with
  | nil => intro i e r hr; simpa [topUpGo_nil] using hr
  | cons d ds ih =>
    intro i e r hr
    by_cases hi : i = di
    · subst hi; rw [topUpGo_cons_chosen]; exact ih _ _ _ hr
    · by_cases ha : 0 ≤ r - (pyLen d + 2)
      · rw [topUpGo_cons_accept di i e r d ds hi ha]; exact ih _ _ _ ha
      · rw [topUpGo_cons_reject di i e r d ds hi (by omega)]; exact ih _ _ _ hr

theorem topUpGo_snd_le (di : Nat) (ds : List PyStr) :
    ∀ (i : Nat) (e : PyStr) (r : Int), (topUpGo di i e r ds).2 ≤ r := by
  induction ds with
  | nil => intro i e r; simp [topUpGo_nil]
  | cons d ds ih =>
    intro i e r
    by_cases hi : i = di
    · subst hi; rw [topUpGo_cons_chosen]; exact ih _ _ _
    · by_cases ha : 0 ≤ r - (pyLen d + 2)
      · rw [topUpGo_cons_accept di i e r d ds hi ha]
        have h1 := ih (i + 1) (pyDropLast e 1 ++ sSemiSpace ++ d ++ sNewline)
          (r - (pyLen d + 2))
        have h2 := pyLen_nonneg d
        omega
      · rw [topUpGo_cons_reject di i e r d ds hi (by omega)]; exact ih _ _ _

theorem topUpGo_shape (di : Nat) (ds : List PyStr) :
    ∀ (i : Nat) (x t : PyStr) (r : Int),
      ∃ t', (topUpGo di i (x ++ (t ++ sNewline)) r ds).1 = x ++ (t' ++ sNewline) := by
  induction ds with
  | nil => intro i x t r; exact ⟨t, by simp [topUpGo_nil]⟩
  | cons d ds ih =>
    intro i x t r
    by_cases hi : i = di
    · subst hi; rw [topUpGo_cons_chosen]; exact ih _ _ _ _
    · by_cases ha : 0 ≤ r - (pyLen d + 2)
      · rw [topUpGo_cons_accept di i _ r d ds hi ha]
        have hdrop : pyDropLast (x ++ (t ++ sNewline)) 1 = x ++ t := by
          have h1 : sNewline.length = 1 := by decide
          have h2 : x ++ (t ++ sNewline) = (x ++ t) ++ sNewline := by
            simp [List.append_assoc]
          rw [h2, ← h1, pyDropLast_append]
        rw [hdrop]
        have h3 : (x ++ t) ++ sSemiSpace ++ d ++ sNewline =
            x ++ ((t ++ sSemiSpace ++ d) ++ sNewline) := by
          simp [List.append_assoc]
        rw [h3]
        exact ih _ _ _ _
      · rw [topUpGo_cons_reject di i _ r d ds hi (by omega)]
        exact ih _ _ _ _

theorem topUpGo_skip_all (di : Nat) (ds : List PyStr) :
    ∀ (i : Nat) (e : PyStr) (r : Int), i ≤ di →
      (∀ (j : Nat) (hj : j < ds.length), i + j < di →
        r - (pyLen (ds.get ⟨j, hj⟩) + 2) < 0) →
      topUpGo di i e r ds = topUpGo di (di + 1) e r (ds.drop (di + 1 - i)) := by
  induction ds with
  | nil => intro i e r _ _; simp [topUpGo_nil]
  | cons d ds ih =>
    intro i e r hile hrej
    by_cases hi : i = di
    · rw [hi, topUpGo_cons_chosen]
      have hdrop : di + 1 - di = 1 := by omega
      rw [hdrop]
      simp
    · have hilt : i < di := by omega
      have hr0 : r - (pyLen d + 2) < 0 := by
        have := hrej 0 (by simp) (by omega)
        simpa using this
      rw [topUpGo_cons_reject di i e r d ds hi hr0]
      have hrej' : ∀ (j : Nat) (hj : j < ds.length), (i + 1) + j < di →
          r - (pyLen (ds.get ⟨j, hj⟩) + 2) < 0 := by
        intro j hj hjlt
        have := hrej (j + 1) (by simpa using Nat.succ_lt_succ hj) (by omega)
        simpa using this
      have := ih (i + 1) e r (by omega) hrej'
      rw [this]
      have hdrop : di + 1 - i = (di + 1 - (i + 1)) + 1 := by omega
      rw [hdrop]
      simp

/-! Facts about stripping and joining. -/

theorem dropWhile_append_of_mem {l₁ l₂ : PyStr} {c : Char} (hc : c ∈ l₁)
    (hw : isPySpace c = false) :
    (l₁ ++ l₂).dropWhile isPySpace = l₁.dropWhile isPySpace ++ l₂ := by
  rw [List.dropWhile_append]
  have hne : (l₁.dropWhile isPySpace).isEmpty = false := by
    rw [List.isEmpty_eq_false_iff_exists_mem]
    by_contra hemp
    push_neg at hemp
    have hall := List.dropWhile_eq_nil_iff.mp (List.eq_nil_iff_forall_not_mem.mpr hemp)
    have := hall c hc
    simp [hw] at this
  rw [hne]
  simp

theorem pyStrip_decompose (f z : PyStr) (c : Char) (hc : c ∈ f)
    (hw : isPySpace c = false) :
    pyStrip (f ++ (z ++ [')'])) = f.dropWhile isPySpace ++ (z ++ [')']) := by
  unfold pyStrip
  rw [dropWhile_append_of_mem hc hw]
  have hassoc : f.dropWhile isPySpace ++ (z ++ [')']) =
      (f.dropWhile isPySpace ++ z) ++ [')'] := by simp [List.append_assoc]
  rw [hassoc]
  rw [List.reverse_append]
  have hpar : isPySpace ')' = false := by decide
  simp [List.dropWhile_cons, hpar]

theorem pyJoin_mem_infix (e : PyStr) (l : List PyStr) (he : e ∈ l) :
    e <:+: pyJoin l := by
  induction l with
  | nil => simp at he
  | cons f l ih =>
    simp only [List.mem_cons] at he
    rcases he with he | he
    · subst he
      show e <:+: e ++ pyJoin l
      have := List.infix_append ([] : PyStr) e (pyJoin l)
      simpa using this
    · have h1 := ih he
      have h2 : pyJoin l <:+: f ++ pyJoin l := by
        have := List.infix_append f (pyJoin l) ([] : PyStr)
        simpa using this
      exact h1.trans h2

theorem pyJoin_ends_paren (l : List PyStr) (hne : l ≠ [])
    (h : ∀ e ∈ l, ∃ z, e = z ++ [')']) : ∃ z, pyJoin l = z ++ [')'] := by
  induction l with
  | nil => simp at hne
  | cons f l ih =>
    match l with
    | [] =>
      obtain ⟨z, hz⟩ := h f (by simp)
      exact ⟨z, by simpa [pyJoin] using hz⟩
    | g :: l' =>
      obtain ⟨z, hz⟩ := ih (by simp) (fun e he => h e (by simp [he]))
      refine ⟨f ++ z, ?_⟩
      show f ++ pyJoin (g :: l') = f ++ z ++ [')']
      rw [hz]
      simp [List.append_assoc]

/-! Run-level facts about `generateTweetBodyFull`. -/

theorem generateTweetBodyFull_error (p : MDBGParser) (prev : PreviousTweets)
    (h : nowCount0 p > TWEET_MAX_CHARS) :
    generateTweetBodyFull p prev =
      .error ("Entry ".data ++ nowEntry0 p ++ " exceeds 280 characters.".data) := by
  unfold generateTweetBodyFull
  rw [if_pos h]

theorem generateTweetBodyFull_early (p : MDBGParser) (prev : PreviousTweets)
    (h0 : ¬ nowCount0 p > TWEET_MAX_CHARS) (h1 : nowCount1 p + 1 ≥ TWEET_MAX_CHARS) :
    generateTweetBodyFull p prev = .ok (nowEntry1 p, nowCount1 p) := by
  unfold generateTweetBodyFull
  rw [if_neg h0, if_pos h1]

theorem generateTweetBodyFull_normal (p : MDBGParser) (prev : PreviousTweets)
    (h0 : ¬ nowCount0 p > TWEET_MAX_CHARS) (h1 : ¬ nowCount1 p + 1 ≥ TWEET_MAX_CHARS) :
    generateTweetBodyFull p prev =
      .ok (pyStrip (pyJoin (finalEntry p prev :: includedEntries p prev)),
           TWEET_MAX_CHARS - remaining2 p prev) := by
  unfold generateTweetBodyFull
  rw [if_neg h0, if_neg h1]

theorem prevBlocks_cost_nonneg (prev : PreviousTweets) :
    ∀ te, some te ∈ prevBlocks prev → 0 ≤ te.char_count := by
  intro te hte
  rcases prevBlocks_mem_inv hte with h | h | h <;>
    exact prevTweetEntry_cost_nonneg h.symm

theorem remaining1_le_remaining0 (p : MDBGParser) (prev : PreviousTweets) :
    remaining1 p prev ≤ remaining0 p := by
  unfold remaining1 includeResult
  exact includePrevious_snd_le (prevBlocks prev) (remaining0 p)
    (prevBlocks_cost_nonneg prev)

theorem remaining1_nonneg (p : MDBGParser) (prev : PreviousTweets)
    (h : 0 ≤ remaining0 p) : 0 ≤ remaining1 p prev := by
  unfold remaining1 includeResult
  exact includePrevious_snd_nonneg (prevBlocks prev) (remaining0 p) h

theorem remaining2_nonneg (p : MDBGParser) (prev : PreviousTweets)
    (h : 0 ≤ remaining0 p) : 0 ≤ remaining2 p prev := by
  unfold remaining2 topUpResult
  exact topUpGo_snd_nonneg (defIndex p) p.definitions 0 (nowEntry2 p)
    (remaining1 p prev) (remaining1_nonneg p prev h)

theorem finalEntry_shape (p : MDBGParser) (prev : PreviousTweets) :
    ∃ t, finalEntry p prev = nowEntry1 p ++ (t ++ sNewline) := by
  unfold finalEntry topUpResult
  have h : nowEntry2 p = nowEntry1 p ++ (([] : PyStr) ++ sNewline) := by
    simp [nowEntry2]
  rw [h]
  exact topUpGo_shape (defIndex p) p.definitions 0 (nowEntry1 p) [] (remaining1 p prev)

theorem paren_mem_nowEntry0 (p : MDBGParser) : '(' ∈ nowEntry0 p := by
  unfold nowEntry0
  have h : '(' ∈ sSpaceParen := by decide
  simp [h]

theorem paren_mem_nowEntry1 (p : MDBGParser) : '(' ∈ nowEntry1 p := by
  unfold nowEntry1
  split
  · have := paren_mem_nowEntry0 p
    simp [this]
  · rw [show pyDropLast (nowEntry0 p ++ sColonSpace) 2 = nowEntry0 p from by
      have h2 : sColonSpace.length = 2 := by decide
      rw [← h2, pyDropLast_append]]
    exact paren_mem_nowEntry0 p

theorem paren_mem_finalEntry (p : MDBGParser) (prev : PreviousTweets) :
    '(' ∈ finalEntry p prev := by
  obtain ⟨t, ht⟩ := finalEntry_shape p prev
  rw [ht]
  have := paren_mem_nowEntry1 p
  simp [this]

theorem includedEntries_ends_paren (p : MDBGParser) (prev : PreviousTweets) :
    ∀ e ∈ includedEntries p prev, ∃ z, e = z ++ [')'] := by
  intro e he
  unfold includedEntries includeResult at he
  obtain ⟨te, hte, hee⟩ := includePrevious_mem (prevBlocks prev) (remaining0 p) e he
  subst hee
  rcases prevBlocks_mem_inv hte with h | h | h <;>
    exact prevTweetEntry_ends_paren h.symm

/-- In the normal path, the returned body decomposes as the
left-stripped current entry followed by all accepted previous-tweet
fragments: stripping removes nothing from the accepted blocks. -/
theorem body_decompose (p : MDBGParser) (prev : PreviousTweets)
    (hne : includedEntries p prev ≠ []) :
    pyStrip (pyJoin (finalEntry p prev :: includedEntries p prev)) =
      (finalEntry p prev).dropWhile isPySpace ++ pyJoin (includedEntries p prev) := by
  obtain ⟨z, hz⟩ := pyJoin_ends_paren (includedEntries p prev) hne
    (includedEntries_ends_paren p prev)
  have hjoin : pyJoin (finalEntry p prev :: includedEntries p prev) =
      finalEntry p prev ++ pyJoin (includedEntries p prev) := rfl
  rw [hjoin, hz]
  exact pyStrip_decompose (finalEntry p prev) z '(' (paren_mem_finalEntry p prev)
    (by decide)

/-! Concrete example inputs used by the witnesses. -/

/-- The current entry used throughout the repository's own tests:
word `你好`, pinyin `nǐ hǎo`, one definition `hello`. -/
def exHello : MDBGParser :=
  { simplified := "你好".data, pinyin := "nǐ hǎo".data, definitions := ["hello".data] }

/-- The body produced for `exHello` with no previous tweets. -/
def exBody1 : PyStr := "你好 (nǐ hǎo): hello".data

/-- An all-ASCII current entry. -/
def exAscii : MDBGParser :=
  { simplified := "hi".data, pinyin := "hai".data, definitions := [] }

/-- A well-formed previous-tweet dictionary with a one-character word
and a one-character URL. -/
def exLWdict : PrevTweetDict := { word := some "我".data, url := some "u".data }

/-- The block rendered from `exLWdict` under the `Last Week` label. -/
def exLWte : TweetEntry :=
  { entry := "\nLast Week: 我 (u)".data, char_count := 40 }

/-- C1: whenever `generate_tweet_body` returns (does not raise), the
accounted length of the returned body — each included word's characters
counted twice, each included URL counted as `TWEET_URL_LENGTH` instead
of its literal length, which is exactly the count the code tracks in
its `char_count`/`remaining_chars` bookkeeping and which
`generateTweetBodyFull` returns alongside the body — is at most
`TWEET_MAX_CHARS = 280`. -/
theorem accounted_length_le_max (p : MDBGParser) (prev : PreviousTweets)
    (body : PyStr) (n : Int)
    (h : generateTweetBodyFull p prev = .ok (body, n)) : n ≤ TWEET_MAX_CHARS := by
  by_cases h0 : nowCount0 p > TWEET_MAX_CHARS
  · rw [generateTweetBodyFull_error p prev h0] at h
    simp at h
  · by_cases h1 : nowCount1 p + 1 ≥ TWEET_MAX_CHARS
    · rw [generateTweetBodyFull_early p prev h0 h1] at h
      simp only [Except.ok.injEq, Prod.mk.injEq] at h
      obtain ⟨-, hn⟩ := h
      rw [← hn]
      exact nowCount1_le_max p (by omega)
    · rw [generateTweetBodyFull_normal p prev h0 h1] at h
      simp only [Except.ok.injEq, Prod.mk.injEq] at h
      obtain ⟨-, hn⟩ := h
      have hr0 : 0 ≤ remaining0 p := by
        unfold remaining0 nowCount2
        omega
      have hr2 := remaining2_nonneg p prev hr0
      omega

/-- Witness for C1 at a concrete input. -/
theorem accounted_length_le_max_witness :
    generateTweetBodyFull exHello noPrev = .ok (exBody1, 21) ∧ (21 : Int) ≤ TWEET_MAX_CHARS :=
  ⟨rfl, accounted_length_le_max exHello noPrev exBody1 21 rfl⟩

/-- C2: `generate_tweet_body` fails if and only if the accounted length
of the minimal current entry `{characters} ({pronunciation})` — its
character count plus the character count of the word — strictly exceeds
`TWEET_MAX_CHARS`; in every other case it returns a body. -/
theorem error_iff_minimal_entry_over_budget (p : MDBGParser) (prev : PreviousTweets) :
    ((∃ msg, generate_tweet_body p prev = .error msg) ↔
      pyLen (p.simplified ++ sSpaceParen ++ p.pinyin ++ sCloseParen) +
        pyLen p.simplified > TWEET_MAX_CHARS) ∧
    ((∃ body, generate_tweet_body p prev = .ok body) ↔
      pyLen (p.simplified ++ sSpaceParen ++ p.pinyin ++ sCloseParen) +
        pyLen p.simplified ≤ TWEET_MAX_CHARS) := by
  have hcc : pyLen (p.simplified ++ sSpaceParen ++ p.pinyin ++ sCloseParen) +
      pyLen p.simplified = nowCount0 p := rfl
  rw [hcc]
  by_cases h0 : nowCount0 p > TWEET_MAX_CHARS
  · have herr : generate_tweet_body p prev =
        .error ("Entry ".data ++ nowEntry0 p ++ " exceeds 280 characters.".data) := by
      unfold generate_tweet_body
      rw [generateTweetBodyFull_error p prev h0]
      rfl
    constructor
    · exact ⟨fun _ => h0, fun _ => ⟨_, herr⟩⟩
    · constructor
      · rintro ⟨body, hbody⟩
        rw [herr] at hbody
        simp at hbody
      · intro hle; omega
  · have hok : ∃ pair, generateTweetBodyFull p prev = .ok pair := by
      by_cases h1 : nowCount1 p + 1 ≥ TWEET_MAX_CHARS
      · exact ⟨_, generateTweetBodyFull_early p prev h0 h1⟩
      · exact ⟨_, generateTweetBodyFull_normal p prev h0 h1⟩
    obtain ⟨pair, hpair⟩ := hok
    have hok' : generate_tweet_body p prev = .ok pair.1 := by
      unfold generate_tweet_body
      rw [hpair]
      rfl
    constructor
    · constructor
      · rintro ⟨msg, hmsg⟩
        rw [hok'] at hmsg
        simp at hmsg
      · intro hgt; omega
    · exact ⟨fun _ => by omega, fun _ => ⟨pair.1, hok'⟩⟩

/-- C3 counterexample: the fragment rendered for the all-ASCII entry
`hi (hai)` contains only ASCII characters and no URL, yet its accounted
length is 10, not its raw character count 8: the code counts every
character of the word twice, not only double-width characters. -/
theorem ascii_fragment_not_raw_count :
    (∀ c ∈ nowEntry0 exAscii, c.toNat < 128) ∧
    nowEntry0 exAscii = "hi (hai)".data ∧
    pyLen (nowEntry0 exAscii) = 8 ∧
    nowCount0 exAscii = 10 ∧
    nowCount0 exAscii ≠ pyLen (nowEntry0 exAscii) := by
  refine ⟨?_, by decide, by decide, by decide, by decide⟩
  decide

/-- C3 amended: the accounted length of the current-entry fragment is
its raw character count plus the full character count of the word —
every word character contributes an extra count whether or not it is
double-width, so the accounted length equals the raw count only when
the word is empty; a historical block's accounted length likewise adds
the full word length and replaces the URL length by
`TWEET_URL_LENGTH`. -/
theorem accounted_length_adds_word_length (p : MDBGParser) (label w u : PyStr)
    (te : TweetEntry) :
    nowCount0 p = pyLen (nowEntry0 p) + pyLen p.simplified ∧
    (nowCount0 p = pyLen (nowEntry0 p) ↔ p.simplified = []) ∧
    (prevTweetEntry label (some { word := some w, url := some u }) = some te →
      te.char_count = pyLen te.entry + pyLen w - pyLen u + TWEET_URL_LENGTH) := by
  refine ⟨rfl, ?_, ?_⟩
  · unfold nowCount0
    constructor
    · intro h
      have hlen : pyLen p.simplified = 0 := by omega
      simpa [pyLen, List.length_eq_zero] using hlen
    · intro h
      simp [h, pyLen]
  · intro h
    obtain ⟨w', u', hd, hent, hcc⟩ := prevTweetEntry_inv h
    have hw : w' = w := by
      simp only [Option.some.injEq, PrevTweetDict.mk.injEq] at hd
      simp [hd.1]
    have hu : u' = u := by
      simp only [Option.some.injEq, PrevTweetDict.mk.injEq] at hd
      simp [hd.2]
    rw [hcc, hw, hu]

/-- Witness for C3's amended theorem at a concrete input. -/
theorem accounted_length_adds_word_length_witness :
    prevTweetEntry sLastWeek (some exLWdict) = some exLWte ∧
    exLWte.char_count = pyLen exLWte.entry + pyLen ("我".data) - pyLen ("u".data) +
      TWEET_URL_LENGTH :=
  ⟨rfl,
   (accounted_length_adds_word_length exAscii sLastWeek ("我".data) ("u".data)
      exLWte).2.2 rfl⟩

/-- An overlong definition (270 characters). -/
def exBig : PyStr := List.replicate 270 'a'

/-- The first-fit example of the spec: four overlong definitions
followed by `hello`. -/
def exFirstFit : MDBGParser :=
  { simplified := "你好".data, pinyin := "nǐhǎo".data,
    definitions := [exBig, exBig, exBig, exBig, "hello".data] }

/-- C4: the first definition pass scans the definitions in order and
appends exactly the first whose addition (after the `": "` delimiter)
keeps the accounted total within `TWEET_MAX_CHARS`; when none fits, the
block carries no definition and the `": "` delimiter is dropped.  In
particular, for `[overlong, overlong, overlong, overlong, "hello"]` the
chosen definition is exactly `hello`. -/
theorem first_fitting_definition :
    (∀ (p : MDBGParser),
      defIndex p ≤ p.definitions.length ∧
      (∀ (j : Nat) (hj : j < p.definitions.length), j < defIndex p →
        TWEET_MAX_CHARS < (nowCount0 p + 2) + pyLen (p.definitions.get ⟨j, hj⟩)) ∧
      (∀ (hd : defIndex p < p.definitions.length),
        (nowCount0 p + 2) + pyLen (p.definitions.get ⟨defIndex p, hd⟩) ≤ TWEET_MAX_CHARS ∧
        nowEntry1 p = (nowEntry0 p ++ sColonSpace) ++ p.definitions.get ⟨defIndex p, hd⟩ ∧
        nowCount1 p = (nowCount0 p + 2) + pyLen (p.definitions.get ⟨defIndex p, hd⟩)) ∧
      (defIndex p = p.definitions.length →
        nowEntry1 p = nowEntry0 p ∧ nowCount1 p = nowCount0 p)) ∧
    nowEntry1 exFirstFit = (nowEntry0 exFirstFit ++ sColonSpace) ++ "hello".data := by
  constructor
  · intro p
    refine ⟨firstFitIndex_le (nowCount0 p + 2) p.definitions, ?_, ?_, ?_⟩
    · intro j hj hjlt
      exact firstFitIndex_before (nowCount0 p + 2) p.definitions j hjlt hj
    · intro hd
      refine ⟨firstFitIndex_fit (nowCount0 p + 2) p.definitions hd, ?_, ?_⟩
      · unfold nowEntry1
        rw [dif_pos hd]
      · unfold nowCount1
        rw [dif_pos hd]
    · intro hlen
      have hno : ¬ defIndex p < p.definitions.length := by omega
      exact ⟨nowEntry1_of_no_fit p hno, nowCount1_of_no_fit p hno⟩
  · decide

/-- Witness for C4 at a concrete input. -/
theorem first_fitting_definition_witness :
    TWEET_MAX_CHARS <
      (nowCount0 exFirstFit + 2) + pyLen (exFirstFit.definitions.get ⟨0, by decide⟩) :=
  (first_fitting_definition.1 exFirstFit).2.1 0 (by decide) (by decide)

/-- A block too expensive for a ten-character budget. -/
def exCostly : TweetEntry := { entry := "\nRandom: q (u)".data, char_count := 20 }

/-- C5: historical blocks are tried in the fixed priority order Last
Week, Last Month, Random; a block whose accounted cost exceeds the
remaining budget is skipped entirely, leaving the budget unchanged for
the later blocks, which are still tried independently; accepting a
block decrements the budget available to the rest. -/
theorem historical_priority_and_skip (r : Int) (te : TweetEntry)
    (es : List (Option TweetEntry)) (prev : PreviousTweets) (hr : 0 ≤ r) :
    prevBlocks prev = [prevTweetEntry sLastWeek prev.last_week,
                       prevTweetEntry sLastMonth prev.last_month,
                       prevTweetEntry sRandom prev.random] ∧
    includePrevious r (none :: es) = includePrevious r es ∧
    (r - te.char_count < 0 → includePrevious r (some te :: es) = includePrevious r es) ∧
    (0 ≤ r - te.char_count → includePrevious r (some te :: es) =
      (te.entry :: (includePrevious (r - te.char_count) es).1,
       (includePrevious (r - te.char_count) es).2)) := by
  refine ⟨rfl, includePrevious_cons_none r es hr, ?_, ?_⟩
  · intro hs
    exact includePrevious_cons_skip r te es hr hs
  · intro ha
    exact includePrevious_cons_accept r te es hr ha

/-- Witness for C5 at a concrete input: a block of cost 20 is skipped
on a budget of 10, leaving the budget unchanged. -/
theorem historical_priority_and_skip_witness :
    includePrevious 10 (some exCostly :: []) = includePrevious 10 [] :=
  (historical_priority_and_skip 10 exCostly [] noPrev (by decide)).2.2.1 (by decide)

/-- A current entry whose accounted count with the trailing newline
reaches the limit: a one-character word with a 275-character pinyin. -/
def exLong : MDBGParser :=
  { simplified := "x".data, pinyin := List.replicate 275 'a', definitions := [] }

/-- C6: when appending the trailing newline would meet or exceed
`TWEET_MAX_CHARS`, `generate_tweet_body` returns the current-entry
block alone — word, pronunciation and chosen definition, without the
newline — and every historical block is omitted no matter what the
previous tweets were. -/
theorem newline_over_budget_early_return (p : MDBGParser) (prev : PreviousTweets)
    (h0 : nowCount0 p ≤ TWEET_MAX_CHARS) (h1 : TWEET_MAX_CHARS ≤ nowCount1 p + 1) :
    generateTweetBodyFull p prev = .ok (nowEntry1 p, nowCount1 p) ∧
    generate_tweet_body p prev = .ok (nowEntry1 p) ∧
    generate_tweet_body p prev = generate_tweet_body p noPrev := by
  have hfull := generateTweetBodyFull_early p prev (by omega) (by omega)
  have hfull' := generateTweetBodyFull_early p noPrev (by omega) (by omega)
  refine ⟨hfull, ?_, ?_⟩
  · unfold generate_tweet_body
    rw [hfull]
    rfl
  · unfold generate_tweet_body
    rw [hfull, hfull']

/-- Witness for C6 at a concrete input. -/
theorem newline_over_budget_early_return_witness :
    generate_tweet_body exLong noPrev = .ok (nowEntry1 exLong) :=
  (newline_over_budget_early_return exLong noPrev (by decide) (by decide)).2.1

/-- Explicit form of a block rendered from a well-formed reference. -/
theorem prevTweetEntry_explicit (label w u : PyStr) :
    prevTweetEntry label (some { word := some w, url := some u }) =
      some { entry := sNewline ++ label ++ sColonSpace ++ w ++ sSpaceParen ++ u ++ sCloseParen,
             char_count := pyLen label + 2 * pyLen w + 29 } := by
  unfold prevTweetEntry
  simp only [Option.some.injEq, TweetEntry.mk.injEq, true_and]
  simp only [pyLen_append]
  have h1 : pyLen sNewline = 1 := by decide
  have h2 : pyLen sColonSpace = 2 := by decide
  have h3 : pyLen sSpaceParen = 2 := by decide
  have h4 : pyLen sCloseParen = 1 := by decide
  unfold TWEET_URL_LENGTH
  omega

/-- The previous-tweets record used in run-level witnesses: one
well-formed Last Week reference. -/
def exPrev : PreviousTweets :=
  { last_week := some exLWdict, last_month := none, random := none }

/-- The body produced for `exHello` with `exPrev`. -/
def exBody2 : PyStr := "你好 (nǐ hǎo): hello\n\nLast Week: 我 (u)".data

/-- The `Last Week` block rendered with a three-character URL. -/
def exLWte2 : TweetEntry :=
  { entry := "\nLast Week: 我 (uvw)".data, char_count := 40 }

/-- C7: the accounted cost of a rendered historical block
`\n{label}: {word} ({url})` does not depend on the URL — it always
contributes exactly `TWEET_URL_LENGTH = 23` — while the literal URL
string appears verbatim in the rendered block and, when the block is
accepted, in the returned body. -/
theorem url_length_independence (label w u1 u2 : PyStr) (p : MDBGParser)
    (prev : PreviousTweets) (te1 te2 : TweetEntry)
    (h1 : prevTweetEntry label (some { word := some w, url := some u1 }) = some te1)
    (h2 : prevTweetEntry label (some { word := some w, url := some u2 }) = some te2) :
    te1.char_count = te2.char_count ∧
    u1 <:+: te1.entry ∧
    (∀ (body : PyStr) (n : Int), generateTweetBodyFull p prev = .ok (body, n) →
      nowCount1 p + 1 < TWEET_MAX_CHARS →
      te1.entry ∈ includedEntries p prev → u1 <:+: body) := by
  rw [prevTweetEntry_explicit label w u1] at h1
  rw [prevTweetEntry_explicit label w u2] at h2
  simp only [Option.some.injEq] at h1 h2
  have hcc1 : te1.char_count = pyLen label + 2 * pyLen w + 29 := by rw [← h1]
  have hcc2 : te2.char_count = pyLen label + 2 * pyLen w + 29 := by rw [← h2]
  have hinf : u1 <:+: te1.entry := by
    rw [← h1]
    exact List.infix_append _ u1 _
  refine ⟨by rw [hcc1, hcc2], hinf, ?_⟩
  intro body n hok hlt hmem
  have h0 : ¬ nowCount0 p > TWEET_MAX_CHARS := by
    intro h0
    rw [generateTweetBodyFull_error p prev h0] at hok
    simp at hok
  have hnorm := generateTweetBodyFull_normal p prev h0 (by omega)
  rw [hnorm] at hok
  simp only [Except.ok.injEq, Prod.mk.injEq] at hok
  obtain ⟨hbody, -⟩ := hok
  rw [← hbody]
  have hne : includedEntries p prev ≠ [] := by
    intro hemp
    rw [hemp] at hmem
    simp at hmem
  rw [body_decompose p prev hne]
  have hj1 : te1.entry <:+: pyJoin (includedEntries p prev) :=
    pyJoin_mem_infix _ _ hmem
  have hj2 : pyJoin (includedEntries p prev) <:+:
      (finalEntry p prev).dropWhile isPySpace ++ pyJoin (includedEntries p prev) := by
    have := List.infix_append ((finalEntry p prev).dropWhile isPySpace)
      (pyJoin (includedEntries p prev)) ([] : PyStr)
    simpa using this
  exact hinf.trans (hj1.trans hj2)

/-- Witness for C7 at a concrete input: the one-character URL `u`
appears verbatim in the returned body. -/
theorem url_length_independence_witness : ("u".data : PyStr) <:+: exBody2 :=
  (url_length_independence sLastWeek ("我".data) ("u".data) ("uvw".data)
      exHello exPrev exLWte exLWte2 rfl rfl).2.2 exBody2 61 rfl (by decide) (by decide)

/-- A previous-tweet field that is absent, or present but missing the
`word` key or the `url` key. -/
def absentOrMalformed (t : Option PrevTweetDict) : Prop :=
  t = none ∨ ∃ d, t = some d ∧ (d.word = none ∨ d.url = none)

theorem prevTweetEntry_absent (label : PyStr) (t : Option PrevTweetDict)
    (h : absentOrMalformed t) : prevTweetEntry label t = none := by
  rcases h with h | ⟨d, hd, hwu⟩
  · rw [h]; rfl
  · subst hd
    rcases hwu with hw | hu
    · simp [prevTweetEntry, hw]
    · cases hw : d.word <;> simp [prevTweetEntry, hw, hu]

theorem includePrevious_none3 (r : Int) :
    includePrevious r [none, none, none] = ([], r) := by
  by_cases hr : 0 ≤ r
  · rw [includePrevious_cons_none _ _ hr, includePrevious_cons_none _ _ hr,
        includePrevious_cons_none _ _ hr, includePrevious_nil]
  · simp [includePrevious, hr]

/-- A previous-tweets record with one falsy field and one field missing
the `word` key. -/
def exBad : PreviousTweets :=
  { last_week := none, last_month := some { word := none, url := some "u".data },
    random := none }

/-- C8: a historical reference that is absent or lacks the `word` or
`url` key contributes no block; when all three references are absent or
malformed, no block is accepted and the returned body is the
current-entry block alone. -/
theorem absent_references_contribute_nothing (label : PyStr)
    (t : Option PrevTweetDict) (p : MDBGParser) (prev : PreviousTweets)
    (hlw : absentOrMalformed prev.last_week)
    (hlm : absentOrMalformed prev.last_month)
    (hrd : absentOrMalformed prev.random) :
    (absentOrMalformed t → prevTweetEntry label t = none) ∧
    includedEntries p prev = [] ∧
    remaining1 p prev = remaining0 p ∧
    generateTweetBodyFull p prev = generateTweetBodyFull p noPrev ∧
    (nowCount0 p ≤ TWEET_MAX_CHARS → nowCount1 p + 1 < TWEET_MAX_CHARS →
      generate_tweet_body p prev = .ok (pyStrip (finalEntry p prev))) := by
  have hpb : prevBlocks prev = [none, none, none] := by
    simp [prevBlocks, prevTweetEntry_absent _ _ hlw, prevTweetEntry_absent _ _ hlm,
          prevTweetEntry_absent _ _ hrd]
  have hip : includeResult p prev = ([], remaining0 p) := by
    unfold includeResult
    rw [hpb]
    exact includePrevious_none3 _
  have hinc : includedEntries p prev = [] := by
    unfold includedEntries
    rw [hip]
  refine ⟨prevTweetEntry_absent label t, hinc, ?_, ?_, ?_⟩
  · unfold remaining1
    rw [hip]
  · have hpb0 : prevBlocks noPrev = [none, none, none] := rfl
    have hfe : finalEntry p prev = finalEntry p noPrev := by
      unfold finalEntry topUpResult remaining1 includeResult
      rw [hpb, hpb0]
    have hin : includedEntries p prev = includedEntries p noPrev := by
      unfold includedEntries includeResult
      rw [hpb, hpb0]
    have hr2 : remaining2 p prev = remaining2 p noPrev := by
      unfold remaining2 topUpResult remaining1 includeResult
      rw [hpb, hpb0]
    unfold generateTweetBodyFull
    rw [hfe, hin, hr2]
  · intro hc0 hc1
    have hnorm := generateTweetBodyFull_normal p prev (by omega) (by omega)
    unfold generate_tweet_body
    rw [hnorm, hinc]
    simp [pyJoin, Except.map]

/-- Witness for C8 at a concrete input. -/
theorem absent_references_contribute_nothing_witness :
    includedEntries exHello exBad = [] ∧
    generate_tweet_body exHello exBad = .ok (pyStrip (finalEntry exHello exBad)) :=
  have h := absent_references_contribute_nothing sLastWeek none exHello exBad
    (Or.inl rfl) (Or.inr ⟨_, rfl, Or.inl rfl⟩) (Or.inl rfl)
  ⟨h.2.1, h.2.2.2.2 (by decide) (by decide)⟩

/-- C9: the top-up pass appends only definitions other than the chosen
one, each only when its length plus the 2-character `"; "` separator
fits the remaining budget; a definition passed over in the first pass
for being too long is never accepted, so the whole pass is equivalent
to a pass over only the definitions after the chosen one, in their
original order. -/
theorem topup_only_later_definitions (p : MDBGParser) (prev : PreviousTweets) :
    topUpResult p prev =
      topUpGo (defIndex p) (defIndex p + 1) (nowEntry2 p) (remaining1 p prev)
        (p.definitions.drop (defIndex p + 1)) ∧
    (∀ (di i : Nat) (e : PyStr) (r : Int) (d : PyStr) (ds : List PyStr),
      i ≠ di → 0 ≤ r - (pyLen d + 2) →
      topUpGo di i e r (d :: ds) =
        topUpGo di (i + 1) (pyDropLast e 1 ++ sSemiSpace ++ d ++ sNewline)
          (r - (pyLen d + 2)) ds) ∧
    (∀ (di i : Nat) (e : PyStr) (r : Int) (d : PyStr) (ds : List PyStr),
      i ≠ di → r - (pyLen d + 2) < 0 →
      topUpGo di i e r (d :: ds) = topUpGo di (i + 1) e r ds) := by
  refine ⟨?_, topUpGo_cons_accept, topUpGo_cons_reject⟩
  have hrej : ∀ (j : Nat) (hj : j < p.definitions.length), 0 + j < defIndex p →
      remaining1 p prev - (pyLen (p.definitions.get ⟨j, hj⟩) + 2) < 0 := by
    intro j hj hjlt
    have hbefore := firstFitIndex_before (nowCount0 p + 2) p.definitions j
      (by simpa [defIndex] using hjlt) hj
    have h01 := nowCount0_le_nowCount1 p
    have hr1 := remaining1_le_remaining0 p prev
    have hr0 : remaining0 p = TWEET_MAX_CHARS - (nowCount1 p + 1) := rfl
    rw [hr0] at hr1
    omega
  have h := topUpGo_skip_all (defIndex p) p.definitions 0 (nowEntry2 p)
    (remaining1 p prev) (Nat.zero_le _) hrej
  unfold topUpResult
  simpa using h

/-- Witness for C9 at a concrete input: a fitting later definition is
appended with the `"; "` separator and its cost is deducted. -/
theorem topup_only_later_definitions_witness :
    topUpGo 1 0 ("ab\n".data) 10 ("xy".data :: []) =
      topUpGo 1 (0 + 1) (pyDropLast ("ab\n".data) 1 ++ sSemiSpace ++ "xy".data ++ sNewline)
        (10 - (pyLen ("xy".data) + 2)) [] :=
  (topup_only_later_definitions exHello noPrev).2.1 1 0 ("ab\n".data) 10
    ("xy".data) [] (by decide) (by decide)

/-- C10: once the historical-inclusion pass begins, the remaining
budget equals `TWEET_MAX_CHARS` minus the finalized current-entry cost
and is strictly positive; it stays nonnegative through both budget
passes, and an accepted historical block is never removed — it appears
in the returned body. -/
theorem remaining_budget_invariant (p : MDBGParser) (prev : PreviousTweets)
    (h0 : nowCount0 p ≤ TWEET_MAX_CHARS) (h1 : nowCount1 p + 1 < TWEET_MAX_CHARS) :
    remaining0 p = TWEET_MAX_CHARS - nowCount2 p ∧
    0 < remaining0 p ∧
    0 ≤ remaining1 p prev ∧
    0 ≤ remaining2 p prev ∧
    (∀ e ∈ includedEntries p prev, ∀ (body : PyStr) (n : Int),
      generateTweetBodyFull p prev = .ok (body, n) → e <:+: body) := by
  have hr0 : remaining0 p = TWEET_MAX_CHARS - (nowCount1 p + 1) := rfl
  have hpos : 0 < remaining0 p := by omega
  refine ⟨rfl, hpos, remaining1_nonneg p prev (by omega),
          remaining2_nonneg p prev (by omega), ?_⟩
  intro e hmem body n hok
  have hnorm := generateTweetBodyFull_normal p prev (by omega) (by omega)
  rw [hnorm] at hok
  simp only [Except.ok.injEq, Prod.mk.injEq] at hok
  obtain ⟨hbody, -⟩ := hok
  rw [← hbody]
  have hne : includedEntries p prev ≠ [] := by
    intro hemp
    rw [hemp] at hmem
    simp at hmem
  rw [body_decompose p prev hne]
  have hj1 : e <:+: pyJoin (includedEntries p prev) := pyJoin_mem_infix _ _ hmem
  have hj2 : pyJoin (includedEntries p prev) <:+:
      (finalEntry p prev).dropWhile isPySpace ++ pyJoin (includedEntries p prev) := by
    have := List.infix_append ((finalEntry p prev).dropWhile isPySpace)
      (pyJoin (includedEntries p prev)) ([] : PyStr)
    simpa using this
  exact hj1.trans hj2

/-- Witness for C10 at a concrete input: the accepted Last Week block
appears in the returned body. -/
theorem remaining_budget_invariant_witness : exLWte.entry <:+: exBody2 :=
  (remaining_budget_invariant exHello exPrev (by decide) (by decide)).2.2.2.2
    exLWte.entry (by decide) exBody2 61 rfl

end TwitterBot
